import Mathlib

/-!
Verification of the `indenter` crate (`src/lib.rs`) against its
natural-language specification.

The development shallow-embeds the library over `List Char`:

* `rustIsWhitespace` models `char::is_whitespace` (the Unicode `White_Space`
  property used by `str::trim_start`);
* `splitOnNl` models `str::split('\n')` (a chunk with no newline yields one
  piece, a trailing newline yields a trailing empty piece);
* `Format` / `Format.insert_indentation` model the prefix strategies, with the
  `Custom` callback modelled as the text it writes for a given line number;
* `writePieces` models the loop body of `Indented::write_str`: it returns the
  final `started` flag, the ordered list of sub-write requests sent to the
  sink, and the list of line numbers passed to `insert_indentation`;
* `Indented.write_str` applies a chunk to a writer whose sink is an in-memory
  buffer (the `String` sink of the crate's own tests);
* `write_strE` is the fallible translation of the same loop over an arbitrary
  sink with a `Except`-returning write operation, mirroring the `?` operators
  of the source.
-/

namespace Indenter

/-- Model of Rust `char::is_whitespace`: the Unicode `White_Space` property,
by code point (U+0009 to U+000D, U+0020, U+0085, U+00A0, U+1680,
U+2000 to U+200A, U+2028, U+2029, U+202F, U+205F, U+3000). -/
def rustIsWhitespace (c : Char) : Bool :=
  let n := c.toNat
  (9 <= n && n <= 13) || n == 32 || n == 0x85 || n == 0xA0 || n == 0x1680 ||
  (0x2000 <= n && n <= 0x200A) || n == 0x2028 || n == 0x2029 || n == 0x202F ||
  n == 0x205F || n == 0x3000

/-- Model of `str::trim_start`: drop leading whitespace characters. -/
def trimStart : List Char → List Char
  | [] => []
  | c :: cs => if rustIsWhitespace c then trimStart cs else c :: cs

/-- Model of `str::split('\n')`: always returns at least one piece; a
trailing newline yields a trailing empty piece. -/
def splitOnNl : List Char → List (List Char)
  | [] => [[]]
  | c :: cs =>
    if c = '\n' then [] :: splitOnNl cs
    else
      match splitOnNl cs with
      | [] => [[c]]
      | p :: ps => (c :: p) :: ps

/-- The set of supported formats for indentation (`enum Format` in the
source).  The `Custom` inserter callback is modelled by the text it writes to
the sink for a given line number. -/
inductive Format where
  | Uniform (indentation : List Char)
  | Numbered (ind : Nat)
  | Custom (inserter : Nat → List Char)

/-- The text produced by `write!(f, "{: >4}: ", ind)`: the decimal rendering
of `ind`, right-aligned in a field of minimum width 4, followed by `": "`. -/
def numberedIndent (n : Nat) : List Char :=
  let ds := (Nat.repr n).data
  List.replicate (4 - ds.length) ' ' ++ ds ++ [':', ' ']

/-- Model of `Format::insert_indentation`: the text written to the sink for
the given line number. -/
def Format.insert_indentation : Format → Nat → List Char
  | .Uniform indentation, _ => indentation
  | .Numbered n, line => if line = 0 then numberedIndent n else (("      ").data)
  | .Custom inserter, line => inserter line

/-- Result of running the `write_str` loop on a list of pieces: the final
`started` flag, the ordered sub-write requests sent to the sink, and the line
numbers passed to `insert_indentation` (one entry per prefix emission). -/
structure WriteOut where
  started : Bool
  reqs : List (List Char)
  nums : List Nat
deriving Repr

/-- The loop body of `Indented::write_str`, over the enumerated pieces of the
chunk.  `i` is the enumeration index of the head piece. -/
def writePieces (fmt : Format) : Bool → Nat → List (List Char) → WriteOut
  | started, _, [] => ⟨started, [], []⟩
  | started, i, line :: rest =>
    if started = false then
      let l := trimStart line
      if l = [] then writePieces fmt false (i + 1) rest
      else
        let r := writePieces fmt true (i + 1) rest
        ⟨r.started, fmt.insert_indentation i :: l :: r.reqs, i :: r.nums⟩
    else if 0 < i then
      let r := writePieces fmt true (i + 1) rest
      ⟨r.started, ['\n'] :: fmt.insert_indentation i :: line :: r.reqs,
        i :: r.nums⟩
    else
      let r := writePieces fmt true (i + 1) rest
      ⟨r.started, line :: r.reqs, r.nums⟩

/-- The `Indented` writer with a `String` sink: `inner` is the accumulated
sink content. -/
structure Indented where
  inner : List Char
  started : Bool
  format : Format

/-- `indented`: default construction, uniform four-space indentation. -/
def indented (f : List Char) : Indented :=
  ⟨f, false, .Uniform (("    ").data)⟩

/-- `Indented::with_format`. -/
def Indented.with_format (st : Indented) (format : Format) : Indented :=
  { st with format := format }

/-- `Indented::ind`: sets the format to `Format::Numbered` with the index. -/
def Indented.ind (st : Indented) (n : Nat) : Indented :=
  st.with_format (.Numbered n)

/-- `Indented::write_str` against the `String` sink: append every sub-write
request to `inner`. -/
def Indented.write_str (st : Indented) (s : List Char) : Indented :=
  let r := writePieces st.format st.started 0 (splitOnNl s)
  ⟨st.inner ++ r.reqs.flatten, r.started, st.format⟩

/-- The sub-write requests one `write_str` call issues. -/
def write_reqs (st : Indented) (s : List Char) : List (List Char) :=
  (writePieces st.format st.started 0 (splitOnNl s)).reqs

/-- The line numbers one `write_str` call passes to `insert_indentation`. -/
def write_nums (st : Indented) (s : List Char) : List Nat :=
  (writePieces st.format st.started 0 (splitOnNl s)).nums

/-- Apply a sequence of `write_str` calls. -/
def writeAll (st : Indented) : List (List Char) → Indented
  | [] => st
  | s :: rest => writeAll (st.write_str s) rest

/-- The line numbers passed to `insert_indentation` over a whole sequence of
`write_str` calls. -/
def writeAllNums (st : Indented) : List (List Char) → List Nat
  | [] => []
  | s :: rest => write_nums st s ++ writeAllNums (st.write_str s) rest

/-- Fallible translation of the `write_str` loop over an arbitrary sink:
`wr` is the sink's write operation, which may fail; each `?` in the source
becomes a `bind` that aborts on the first failure.  On success the final
`started` flag is returned alongside the sink. -/
def write_strE {σ ε : Type} (wr : σ → List Char → Except ε σ) (fmt : Format) :
    Bool → Nat → List (List Char) → σ → Except ε (Bool × σ)
  | started, _, [], k => .ok (started, k)
  | started, i, line :: rest, k =>
    if started = false then
      let l := trimStart line
      if l = [] then write_strE wr fmt false (i + 1) rest k
      else
        (wr k (fmt.insert_indentation i)).bind fun k1 =>
          (wr k1 l).bind fun k2 =>
            write_strE wr fmt true (i + 1) rest k2
    else if 0 < i then
      (wr k ['\n']).bind fun k1 =>
        (wr k1 (fmt.insert_indentation i)).bind fun k2 =>
          (wr k2 line).bind fun k3 =>
            write_strE wr fmt true (i + 1) rest k3
    else
      (wr k line).bind fun k1 =>
        write_strE wr fmt true (i + 1) rest k1

/-- `write_strE` at the `write_str` entry point: enumeration starts at 0 on
the pieces of the chunk. -/
def writeE {σ ε : Type} (wr : σ → List Char → Except ε σ) (fmt : Format)
    (started : Bool) (s : List Char) (k : σ) : Except ε (Bool × σ) :=
  write_strE wr fmt started 0 (splitOnNl s) k

/-- Feed a list of sub-write requests to a sink one by one, aborting on the
first failure. -/
def feedSink {σ ε : Type} (wr : σ → List Char → Except ε σ) :
    σ → List (List Char) → Except ε σ
  | k, [] => .ok k
  | k, r :: rs => (wr k r).bind fun k1 => feedSink wr k1 rs

/-- Character-level description of the uniform-indentation writer: a piece of
pre-start whitespace is absorbed, the first text character triggers the
marker, and afterwards every newline is followed by the marker.  Used to
prove properties of `write_str` with a `Format.Uniform` format. -/
def uniformRun (M : List Char) : Bool → List Char → Bool × List Char
  | st, [] => (st, [])
  | false, c :: t =>
    if rustIsWhitespace c then uniformRun M false t
    else
      let r := uniformRun M true t
      (r.1, M ++ c :: r.2)
  | true, c :: t =>
    if c = '\n' then
      let r := uniformRun M true t
      (r.1, '\n' :: (M ++ r.2))
    else
      let r := uniformRun M true t
      (r.1, c :: r.2)

/-- Modelled from the spec: "`M` concatenated with `T`, with every `\n` in
`T` followed immediately by another copy of `M`" — this function inserts a
copy of `M` immediately after every newline of the text. -/
def indentNewlines (M : List Char) : List Char → List Char
  | [] => []
  | c :: t =>
    if c = '\n' then '\n' :: (M ++ indentNewlines M t)
    else c :: indentNewlines M t

/-! ### Basic lemmas about splitting and trimming -/

theorem splitOnNl_ne_nil (t : List Char) : splitOnNl t ≠ [] := by
  cases t with
  | nil => simp [splitOnNl]
  | cons c cs =>
    simp only [splitOnNl]
    split
    · simp
    · split <;> simp

theorem splitOnNl_nil : splitOnNl [] = [[]] := rfl

theorem splitOnNl_cons_nl (t : List Char) :
    splitOnNl ('\n' :: t) = [] :: splitOnNl t := by
  simp [splitOnNl]

theorem splitOnNl_cons_ne (c : Char) (t : List Char) (hc : c ≠ '\n') :
    splitOnNl (c :: t) = (c :: (splitOnNl t).headI) :: (splitOnNl t).tail := by
  simp only [splitOnNl, if_neg hc]
  obtain ⟨p, ps, hp⟩ := List.exists_cons_of_ne_nil (splitOnNl_ne_nil t)
  rw [hp]
  simp

theorem trimStart_cons_ws (c : Char) (t : List Char) (h : rustIsWhitespace c = true) :
    trimStart (c :: t) = trimStart t := by
  simp [trimStart, h]

theorem trimStart_cons_not_ws (c : Char) (t : List Char)
    (h : rustIsWhitespace c = false) : trimStart (c :: t) = c :: t := by
  simp [trimStart, h]

theorem trimStart_eq_nil (t : List Char) (h : ∀ c ∈ t, rustIsWhitespace c = true) :
    trimStart t = [] := by
  induction t with
  | nil => rfl
  | cons c cs ih =>
    rw [trimStart_cons_ws c cs (h c (by simp))]
    exact ih fun d hd => h d (by simp [hd])

/-! ### Unfolding equations for the write loop -/

theorem wp_nil (fmt : Format) (b : Bool) (i : Nat) :
    writePieces fmt b i [] = ⟨b, [], []⟩ := rfl

theorem wp_blank (fmt : Format) (i : Nat) (p : List Char) (ps : List (List Char))
    (h : trimStart p = []) :
    writePieces fmt false i (p :: ps) = writePieces fmt false (i + 1) ps := by
  simp [writePieces, h]

theorem wp_text (fmt : Format) (i : Nat) (p : List Char) (ps : List (List Char))
    (h : ¬ trimStart p = []) :
    writePieces fmt false i (p :: ps) =
      ⟨(writePieces fmt true (i + 1) ps).started,
        fmt.insert_indentation i :: trimStart p ::
          (writePieces fmt true (i + 1) ps).reqs,
        i :: (writePieces fmt true (i + 1) ps).nums⟩ := by
  simp [writePieces, h]

theorem wp_cont (fmt : Format) (p : List Char) (ps : List (List Char)) :
    writePieces fmt true 0 (p :: ps) =
      ⟨(writePieces fmt true 1 ps).started,
        p :: (writePieces fmt true 1 ps).reqs,
        (writePieces fmt true 1 ps).nums⟩ := by
  simp [writePieces]

theorem wp_pos (fmt : Format) (i : Nat) (hi : 0 < i) (p : List Char)
    (ps : List (List Char)) :
    writePieces fmt true i (p :: ps) =
      ⟨(writePieces fmt true (i + 1) ps).started,
        ['\n'] :: fmt.insert_indentation i :: p ::
          (writePieces fmt true (i + 1) ps).reqs,
        i :: (writePieces fmt true (i + 1) ps).nums⟩ := by
  simp [writePieces, hi, Nat.ne_of_gt hi]

theorem wp_started_true (fmt : Format) (i : Nat) (ps : List (List Char)) :
    (writePieces fmt true i ps).started = true := by
  induction ps generalizing i with
  | nil => rfl
  | cons p ps ih =>
    rcases Nat.eq_zero_or_pos i with hi | hi
    · subst hi; rw [wp_cont]; exact ih _
    · rw [wp_pos fmt i hi]; exact ih _

/-! ### The uniform strategy ignores the line number -/

theorem ws_nl : rustIsWhitespace '\n' = true := by decide

theorem wp_uniform_shift (M : List Char) (ps : List (List Char)) :
    ∀ i j, 0 < i → 0 < j →
      (writePieces (.Uniform M) true i ps).reqs =
        (writePieces (.Uniform M) true j ps).reqs := by
  induction ps with
  | nil => intro i j _ _; rfl
  | cons p ps ih =>
    intro i j hi hj
    rw [wp_pos _ i hi, wp_pos _ j hj]
    simp only [Format.insert_indentation]
    rw [ih (i + 1) (j + 1) (by omega) (by omega)]

theorem wp_uniform_shift0 (M : List Char) (ps : List (List Char)) :
    ∀ i j, (writePieces (.Uniform M) false i ps).reqs =
        (writePieces (.Uniform M) false j ps).reqs ∧
      (writePieces (.Uniform M) false i ps).started =
        (writePieces (.Uniform M) false j ps).started := by
  induction ps with
  | nil => intro i j; exact ⟨rfl, rfl⟩
  | cons p ps ih =>
    intro i j
    by_cases h : trimStart p = []
    · rw [wp_blank _ i _ _ h, wp_blank _ j _ _ h]; exact ih _ _
    · rw [wp_text _ i _ _ h, wp_text _ j _ _ h]
      refine ⟨?_, by simp [wp_started_true]⟩
      simp only [Format.insert_indentation]
      rw [wp_uniform_shift M ps (i + 1) (j + 1) (by omega) (by omega)]

/-! ### Unfolding equations for the character-level uniform machine -/

theorem ur_false_ws (M : List Char) (c : Char) (t : List Char)
    (h : rustIsWhitespace c = true) :
    uniformRun M false (c :: t) = uniformRun M false t := by
  simp [uniformRun, h]

theorem ur_false_tx (M : List Char) (c : Char) (t : List Char)
    (h : rustIsWhitespace c = false) :
    uniformRun M false (c :: t) =
      ((uniformRun M true t).1, M ++ c :: (uniformRun M true t).2) := by
  simp [uniformRun, h]

theorem ur_true_nl (M : List Char) (t : List Char) :
    uniformRun M true ('\n' :: t) =
      ((uniformRun M true t).1, '\n' :: (M ++ (uniformRun M true t).2)) := by
  simp [uniformRun]

theorem ur_true_ch (M : List Char) (c : Char) (t : List Char) (h : c ≠ '\n') :
    uniformRun M true (c :: t) =
      ((uniformRun M true t).1, c :: (uniformRun M true t).2) := by
  simp [uniformRun, h]

theorem ur_true_fst (M : List Char) (t : List Char) :
    (uniformRun M true t).1 = true := by
  induction t with
  | nil => rfl
  | cons c t ih =>
    by_cases h : c = '\n'
    · subst h; rw [ur_true_nl]; exact ih
    · rw [ur_true_ch M c t h]; exact ih

/-- The `write_str` machine with a `Format.Uniform` format agrees, both on
the final `started` flag and on the concatenation of the sub-writes sent to
the sink, with the character-level machine `uniformRun`. -/
theorem wp_eq_uniformRun (M : List Char) (T : List Char) :
    ∀ st : Bool,
      (writePieces (.Uniform M) st 0 (splitOnNl T)).started =
        (uniformRun M st T).1 ∧
      (writePieces (.Uniform M) st 0 (splitOnNl T)).reqs.flatten =
        (uniformRun M st T).2 := by
  induction T with
  | nil =>
    intro st
    cases st
    · exact ⟨rfl, rfl⟩
    · exact ⟨rfl, rfl⟩
  | cons c T ih =>
    intro st
    obtain ⟨q, qs, hq⟩ := List.exists_cons_of_ne_nil (splitOnNl_ne_nil T)
    by_cases hnl : c = '\n'
    · subst hnl
      rw [splitOnNl_cons_nl]
      cases st
      · rw [wp_blank (.Uniform M) 0 [] (splitOnNl T) rfl,
          ur_false_ws M _ T ws_nl]
        obtain ⟨hr, hs⟩ := wp_uniform_shift0 M (splitOnNl T) (0 + 1) 0
        rw [hr, hs]
        exact ih false
      · rw [wp_cont, hq, wp_pos _ 1 (by omega)]
        constructor
        · simp [wp_started_true, ur_true_nl, ur_true_fst]
        · rw [ur_true_nl]
          have h2 : (writePieces (.Uniform M) true 2 qs).reqs =
              (writePieces (.Uniform M) true 1 qs).reqs :=
            wp_uniform_shift M qs 2 1 (by omega) (by omega)
          have hih := (ih true).2
          rw [hq, wp_cont] at hih
          simp only [List.flatten_cons] at hih ⊢
          rw [h2, Format.insert_indentation]
          simp only [List.append_assoc, List.nil_append]
          rw [hih]
          rfl
    · rw [splitOnNl_cons_ne c T hnl, hq]
      simp only [List.headI, List.tail_cons]
      cases st
      · by_cases hw : rustIsWhitespace c = true
        · rw [ur_false_ws M c T hw]
          have htr : trimStart (c :: q) = trimStart q := trimStart_cons_ws c q hw
          have hih := ih false
          rw [hq] at hih
          by_cases hb : trimStart q = []
          · rw [wp_blank _ 0 _ _ hb] at hih
            rw [wp_blank _ 0 _ _ (htr.trans hb)]
            exact hih
          · have hcq : ¬ trimStart (c :: q) = [] := by rw [htr]; exact hb
            rw [wp_text _ 0 _ _ hb] at hih
            rw [wp_text _ 0 _ _ hcq, htr]
            exact hih
        · have hw' : rustIsWhitespace c = false := by
            cases h : rustIsWhitespace c
            · rfl
            · exact absurd h hw
          rw [ur_false_tx M c T hw']
          have htr : trimStart (c :: q) = c :: q := trimStart_cons_not_ws c q hw'
          rw [wp_text _ 0 _ _ (by rw [htr]; simp)]
          constructor
          · simp [wp_started_true, ur_true_fst]
          · rw [htr, Format.insert_indentation]
            have hih := (ih true).2
            rw [hq, wp_cont] at hih
            simp only [List.flatten_cons] at hih ⊢
            rw [← hih]
            simp
      · rw [wp_cont, ur_true_ch M c T hnl]
        constructor
        · simp [wp_started_true, ur_true_fst]
        · have hih := (ih true).2
          rw [hq, wp_cont] at hih
          simp only [List.flatten_cons] at hih ⊢
          rw [← hih]
          simp

/-! ### Compositionality of the character-level machine -/

theorem not_ws_ne_nl (c : Char) (h : rustIsWhitespace c = false) : c ≠ '\n' := by
  intro hc
  rw [hc, ws_nl] at h
  exact absurd h (by simp)

theorem bool_not_true (b : Bool) (h : ¬ b = true) : b = false := by
  cases b
  · rfl
  · exact absurd rfl h

theorem uniformRun_append (M : List Char) (T1 T2 : List Char) :
    ∀ st, uniformRun M st (T1 ++ T2) =
      ((uniformRun M (uniformRun M st T1).1 T2).1,
        (uniformRun M st T1).2 ++ (uniformRun M (uniformRun M st T1).1 T2).2) := by
  induction T1 with
  | nil => intro st; cases st <;> simp [uniformRun]
  | cons c T1 ih =>
    intro st
    cases st
    · by_cases hw : rustIsWhitespace c = true
      · rw [List.cons_append, ur_false_ws M c _ hw, ur_false_ws M c _ hw,
          ih false]
      · have hw' := bool_not_true _ hw
        rw [List.cons_append, ur_false_tx M c _ hw', ur_false_tx M c _ hw',
          ih true]
        simp
    · by_cases hnl : c = '\n'
      · subst hnl
        rw [List.cons_append, ur_true_nl, ur_true_nl, ih true]
        simp
      · rw [List.cons_append, ur_true_ch M c _ hnl, ur_true_ch M c _ hnl,
          ih true]
        simp

theorem ur_true_indentNewlines (M : List Char) (t : List Char) :
    (uniformRun M true t).2 = indentNewlines M t := by
  induction t with
  | nil => rfl
  | cons c t ih =>
    by_cases h : c = '\n'
    · subst h; rw [ur_true_nl]; simp [indentNewlines, ih]
    · rw [ur_true_ch _ _ _ h]; simp [indentNewlines, h, ih]

/-! ### write_str at the writer level -/

theorem write_str_mk (inn : List Char) (b : Bool) (fmt : Format)
    (s : List Char) :
    Indented.write_str ⟨inn, b, fmt⟩ s =
      ⟨inn ++ (writePieces fmt b 0 (splitOnNl s)).reqs.flatten,
        (writePieces fmt b 0 (splitOnNl s)).started, fmt⟩ := rfl

theorem write_str_empty (st : Indented) : st.write_str [] = st := by
  obtain ⟨inn, b, fmt⟩ := st
  cases b <;> simp [Indented.write_str, splitOnNl, writePieces, trimStart]

theorem write_str_append_uniform (M inn : List Char) (b : Bool)
    (s t : List Char) :
    (Indented.write_str ⟨inn, b, .Uniform M⟩ s).write_str t =
      Indented.write_str ⟨inn, b, .Uniform M⟩ (s ++ t) := by
  rw [write_str_mk, write_str_mk, write_str_mk]
  obtain ⟨h1s, h1r⟩ := wp_eq_uniformRun M s b
  rw [h1s, h1r]
  obtain ⟨h2s, h2r⟩ := wp_eq_uniformRun M t (uniformRun M b s).1
  rw [h2s, h2r]
  obtain ⟨h3s, h3r⟩ := wp_eq_uniformRun M (s ++ t) b
  rw [h3s, h3r, uniformRun_append M s t b]
  simp

/-- Splitting invariance for the uniform strategy, in full generality:
writing the chunks one by one equals writing their concatenation in one
call. -/
theorem uniform_split_invariance (M : List Char) (chunks : List (List Char)) :
    ∀ inn b, writeAll ⟨inn, b, .Uniform M⟩ chunks =
      Indented.write_str ⟨inn, b, .Uniform M⟩ chunks.flatten := by
  induction chunks with
  | nil =>
    intro inn b
    show (⟨inn, b, .Uniform M⟩ : Indented) = _
    rw [List.flatten_nil, write_str_empty]
  | cons s rest ih =>
    intro inn b
    show writeAll (Indented.write_str ⟨inn, b, .Uniform M⟩ s) rest = _
    rw [write_str_mk, ih, ← write_str_mk, write_str_append_uniform,
      List.flatten_cons]

/-! ### The fallible run equals feeding the request trace -/

theorem wE_nil {σ ε : Type} (wr : σ → List Char → Except ε σ) (fmt : Format)
    (b : Bool) (i : Nat) (k : σ) :
    write_strE wr fmt b i [] k = .ok (b, k) := rfl

theorem wE_blank {σ ε : Type} (wr : σ → List Char → Except ε σ) (fmt : Format)
    (i : Nat) (p : List Char) (ps : List (List Char)) (k : σ)
    (h : trimStart p = []) :
    write_strE wr fmt false i (p :: ps) k =
      write_strE wr fmt false (i + 1) ps k := by
  simp [write_strE, h]

theorem wE_text {σ ε : Type} (wr : σ → List Char → Except ε σ) (fmt : Format)
    (i : Nat) (p : List Char) (ps : List (List Char)) (k : σ)
    (h : ¬ trimStart p = []) :
    write_strE wr fmt false i (p :: ps) k =
      (wr k (fmt.insert_indentation i)).bind fun k1 =>
        (wr k1 (trimStart p)).bind fun k2 =>
          write_strE wr fmt true (i + 1) ps k2 := by
  simp [write_strE, h]

theorem wE_cont {σ ε : Type} (wr : σ → List Char → Except ε σ) (fmt : Format)
    (p : List Char) (ps : List (List Char)) (k : σ) :
    write_strE wr fmt true 0 (p :: ps) k =
      (wr k p).bind fun k1 => write_strE wr fmt true (0 + 1) ps k1 := by
  simp [write_strE]

theorem wE_pos {σ ε : Type} (wr : σ → List Char → Except ε σ) (fmt : Format)
    (i : Nat) (hi : 0 < i) (p : List Char) (ps : List (List Char)) (k : σ) :
    write_strE wr fmt true i (p :: ps) k =
      (wr k ['\n']).bind fun k1 =>
        (wr k1 (fmt.insert_indentation i)).bind fun k2 =>
          (wr k2 p).bind fun k3 =>
            write_strE wr fmt true (i + 1) ps k3 := by
  simp [write_strE, hi, Nat.ne_of_gt hi]

theorem write_strE_eq_feed {σ ε : Type} (wr : σ → List Char → Except ε σ)
    (fmt : Format) (ps : List (List Char)) :
    ∀ b i k, write_strE wr fmt b i ps k =
      (feedSink wr k (writePieces fmt b i ps).reqs).map
        (fun k1 => ((writePieces fmt b i ps).started, k1)) := by
  induction ps with
  | nil => intro b i k; rfl
  | cons p ps ih =>
    intro b i k
    cases b
    · by_cases h : trimStart p = []
      · rw [wE_blank wr fmt i p ps k h, wp_blank fmt i p ps h]
        exact ih false (i + 1) k
      · rw [wE_text wr fmt i p ps k h, wp_text fmt i p ps h]
        dsimp only
        simp only [feedSink]
        cases h1 : wr k (fmt.insert_indentation i) with
        | error e => simp [Except.bind, Except.map]
        | ok k1 =>
          simp only [Except.bind]
          cases h2 : wr k1 (trimStart p) with
          | error e => simp [Except.bind, Except.map]
          | ok k2 =>
            simp only [Except.bind]
            exact ih true (i + 1) k2
    · rcases Nat.eq_zero_or_pos i with rfl | hi
      · rw [wE_cont wr fmt p ps k, wp_cont fmt p ps]
        dsimp only
        simp only [feedSink]
        cases h1 : wr k p with
        | error e => simp [Except.bind, Except.map]
        | ok k1 =>
          simp only [Except.bind]
          exact ih true 1 k1
      · rw [wE_pos wr fmt i hi p ps k, wp_pos fmt i hi p ps]
        dsimp only
        simp only [feedSink]
        cases h1 : wr k ['\n'] with
        | error e => simp [Except.bind, Except.map]
        | ok k1 =>
          simp only [Except.bind]
          cases h2 : wr k1 (fmt.insert_indentation i) with
          | error e => simp [Except.bind, Except.map]
          | ok k2 =>
            simp only [Except.bind]
            cases h3 : wr k2 p with
            | error e => simp [Except.bind, Except.map]
            | ok k3 =>
              simp only [Except.bind]
              exact ih true (i + 1) k3

/-! ### Started flag versus sink content -/

theorem wp_false_reqs_nil (fmt : Format) (ps : List (List Char)) :
    ∀ i, (writePieces fmt false i ps).started = false →
      (writePieces fmt false i ps).reqs = [] := by
  induction ps with
  | nil => intro i _; rfl
  | cons p ps ih =>
    intro i h
    by_cases hb : trimStart p = []
    · rw [wp_blank _ _ _ _ hb] at h ⊢
      exact ih _ h
    · rw [wp_text _ _ _ _ hb] at h
      dsimp only at h
      rw [wp_started_true] at h
      exact absurd h (by simp)

theorem wp_false_flatten_ne (fmt : Format) (ps : List (List Char)) :
    ∀ i, (writePieces fmt false i ps).started = true →
      ¬ (writePieces fmt false i ps).reqs.flatten = [] := by
  induction ps with
  | nil => intro i h; simp [wp_nil] at h
  | cons p ps ih =>
    intro i h
    by_cases hb : trimStart p = []
    · rw [wp_blank _ _ _ _ hb] at h ⊢
      exact ih _ h
    · rw [wp_text _ _ _ _ hb]
      dsimp only
      intro hc
      rw [List.flatten_cons, List.flatten_cons] at hc
      rcases (List.append_eq_nil.mp hc) with ⟨_, hc2⟩
      rcases (List.append_eq_nil.mp hc2) with ⟨hc3, _⟩
      exact hb hc3

theorem writeAll_cons (st : Indented) (s : List Char)
    (rest : List (List Char)) :
    writeAll st (s :: rest) = writeAll (st.write_str s) rest := rfl

theorem writeAll_true_mono (fmt : Format) (chunks : List (List Char)) :
    ∀ inn, (writeAll ⟨inn, true, fmt⟩ chunks).started = true ∧
      inn.length ≤ (writeAll ⟨inn, true, fmt⟩ chunks).inner.length := by
  induction chunks with
  | nil => intro inn; exact ⟨rfl, le_refl _⟩
  | cons s rest ih =>
    intro inn
    rw [writeAll_cons, write_str_mk, wp_started_true]
    obtain ⟨h1, h2⟩ :=
      ih (inn ++ (writePieces fmt true 0 (splitOnNl s)).reqs.flatten)
    exact ⟨h1, le_trans (by simp) h2⟩

theorem writeAll_false_inv (fmt : Format) (chunks : List (List Char)) :
    ∀ inn, ((writeAll ⟨inn, false, fmt⟩ chunks).started = false ∧
        (writeAll ⟨inn, false, fmt⟩ chunks).inner = inn) ∨
      ((writeAll ⟨inn, false, fmt⟩ chunks).started = true ∧
        inn.length < (writeAll ⟨inn, false, fmt⟩ chunks).inner.length) := by
  induction chunks with
  | nil => intro inn; exact Or.inl ⟨rfl, rfl⟩
  | cons s rest ih =>
    intro inn
    rw [writeAll_cons]
    cases hS : (writePieces fmt false 0 (splitOnNl s)).started with
    | false =>
      have hreq := wp_false_reqs_nil fmt (splitOnNl s) 0 hS
      have hstep : Indented.write_str ⟨inn, false, fmt⟩ s = ⟨inn, false, fmt⟩ := by
        rw [write_str_mk, hS, hreq]
        simp
      rw [hstep]
      exact ih inn
    | true =>
      have hne := wp_false_flatten_ne fmt (splitOnNl s) 0 hS
      have hlt : inn.length <
          (inn ++ (writePieces fmt false 0 (splitOnNl s)).reqs.flatten).length := by
        rw [List.length_append]
        cases hf : (writePieces fmt false 0 (splitOnNl s)).reqs.flatten with
        | nil => exact absurd hf hne
        | cons x xs => simp [hf]
      have hstep : Indented.write_str ⟨inn, false, fmt⟩ s =
          ⟨inn ++ (writePieces fmt false 0 (splitOnNl s)).reqs.flatten,
            true, fmt⟩ := by
        rw [write_str_mk, hS]
      obtain ⟨h1, h2⟩ := writeAll_true_mono fmt rest
        (inn ++ (writePieces fmt false 0 (splitOnNl s)).reqs.flatten)
      rw [hstep]
      exact Or.inr ⟨h1, lt_of_lt_of_le hlt h2⟩

/-! ### Properties of the line numbers passed to the strategy -/

theorem wp_nums_bounds (fmt : Format) (ps : List (List Char)) :
    ∀ b i n, n ∈ (writePieces fmt b i ps).nums → i ≤ n ∧ n < i + ps.length := by
  induction ps with
  | nil => intro b i n h; simp [wp_nil] at h
  | cons p ps ih =>
    intro b i n h
    cases b
    · by_cases hb : trimStart p = []
      · rw [wp_blank _ _ _ _ hb] at h
        obtain ⟨h1, h2⟩ := ih false (i + 1) n h
        constructor
        · omega
        · simp only [List.length_cons]; omega
      · rw [wp_text _ _ _ _ hb] at h
        dsimp only at h
        rcases List.mem_cons.mp h with rfl | h
        · exact ⟨le_refl _, by simp⟩
        · obtain ⟨h1, h2⟩ := ih true (i + 1) n h
          constructor
          · omega
          · simp only [List.length_cons]; omega
    · rcases Nat.eq_zero_or_pos i with rfl | hi
      · rw [wp_cont] at h
        dsimp only at h
        obtain ⟨h1, h2⟩ := ih true 1 n h
        constructor
        · omega
        · simp only [List.length_cons]; omega
      · rw [wp_pos _ _ hi] at h
        dsimp only at h
        rcases List.mem_cons.mp h with rfl | h
        · exact ⟨le_refl _, by simp⟩
        · obtain ⟨h1, h2⟩ := ih true (i + 1) n h
          constructor
          · omega
          · simp only [List.length_cons]; omega

theorem wp_nums_chain (fmt : Format) (ps : List (List Char)) :
    ∀ b i, List.Chain' (fun a b => a < b) (writePieces fmt b i ps).nums := by
  induction ps with
  | nil => intro b i; simp [wp_nil]
  | cons p ps ih =>
    intro b i
    cases b
    · by_cases hb : trimStart p = []
      · rw [wp_blank _ _ _ _ hb]; exact ih false (i + 1)
      · rw [wp_text _ _ _ _ hb]
        dsimp only
        rw [List.chain'_cons']
        refine ⟨?_, ih true (i + 1)⟩
        intro m hm
        have := wp_nums_bounds fmt ps true (i + 1) m (List.mem_of_mem_head? hm)
        omega
    · rcases Nat.eq_zero_or_pos i with rfl | hi
      · rw [wp_cont]
        dsimp only
        exact ih true 1
      · rw [wp_pos _ _ hi]
        dsimp only
        rw [List.chain'_cons']
        refine ⟨?_, ih true (i + 1)⟩
        intro m hm
        have := wp_nums_bounds fmt ps true (i + 1) m (List.mem_of_mem_head? hm)
        omega

theorem wp_nums_absorbed (fmt : Format) (ps : List (List Char)) :
    ∀ i n0, (writePieces fmt false i ps).nums.head? = some n0 →
      i ≤ n0 ∧ (∀ k, k < n0 - i → trimStart (ps.getD k []) = []) ∧
        ¬ trimStart (ps.getD (n0 - i) []) = [] := by
  induction ps with
  | nil => intro i n0 h; simp [wp_nil] at h
  | cons p ps ih =>
    intro i n0 h
    by_cases hb : trimStart p = []
    · rw [wp_blank _ _ _ _ hb] at h
      obtain ⟨h1, h2, h3⟩ := ih (i + 1) n0 h
      refine ⟨by omega, ?_, ?_⟩
      · intro k hk
        cases k with
        | zero => simpa using hb
        | succ m =>
          have hm : m < n0 - (i + 1) := by omega
          simpa using h2 m hm
      · have heq : n0 - i = (n0 - (i + 1)) + 1 := by omega
        rw [heq]
        simpa using h3
    · rw [wp_text _ _ _ _ hb] at h
      dsimp only at h
      rw [List.head?_cons, Option.some.injEq] at h
      subst h
      refine ⟨le_refl _, ?_, ?_⟩
      · intro k hk
        omega
      · rw [Nat.sub_self]
        simpa using hb

/-! ### Pre-start whitespace is absorbed without output -/

theorem splitOnNl_chars (s : List Char) :
    ∀ p ∈ splitOnNl s, ∀ c ∈ p, c ∈ s := by
  induction s with
  | nil =>
    intro p hp c hc
    simp [splitOnNl] at hp
    subst hp
    simp at hc
  | cons a s ih =>
    intro p hp c hc
    by_cases ha : a = '\n'
    · subst ha
      rw [splitOnNl_cons_nl] at hp
      rcases List.mem_cons.mp hp with rfl | hp
      · simp at hc
      · exact List.mem_cons_of_mem _ (ih p hp c hc)
    · obtain ⟨q, qs, hq⟩ := List.exists_cons_of_ne_nil (splitOnNl_ne_nil s)
      rw [splitOnNl_cons_ne a s ha, hq] at hp
      simp only [List.headI, List.tail_cons] at hp
      rcases List.mem_cons.mp hp with rfl | hp
      · rcases List.mem_cons.mp hc with rfl | hc
        · simp
        · exact List.mem_cons_of_mem _ (ih q (by rw [hq]; simp) c hc)
      · exact List.mem_cons_of_mem _ (ih p (by rw [hq]; simp [hp]) c hc)

theorem wp_all_blank (fmt : Format) (ps : List (List Char)) :
    ∀ i, (∀ p ∈ ps, trimStart p = []) →
      writePieces fmt false i ps = ⟨false, [], []⟩ := by
  induction ps with
  | nil => intro i _; rfl
  | cons p ps ih =>
    intro i hall
    rw [wp_blank _ _ _ _ (hall p (by simp))]
    exact ih (i + 1) fun q hq => hall q (by simp [hq])

theorem write_str_ws_id (fmt : Format) (inn : List Char) (s : List Char)
    (h : ∀ c ∈ s, rustIsWhitespace c = true) :
    Indented.write_str ⟨inn, false, fmt⟩ s = ⟨inn, false, fmt⟩ := by
  have hp : ∀ p ∈ splitOnNl s, trimStart p = [] := fun p hp =>
    trimStart_eq_nil p fun c hc => h c (splitOnNl_chars s p hp c hc)
  rw [write_str_mk, wp_all_blank fmt (splitOnNl s) 0 hp]
  simp

theorem writeAll_ws_id (fmt : Format) (inn : List Char) :
    ∀ chunks : List (List Char),
      (∀ c ∈ chunks.flatten, rustIsWhitespace c = true) →
      writeAll ⟨inn, false, fmt⟩ chunks = ⟨inn, false, fmt⟩ := by
  intro chunks
  induction chunks with
  | nil => intro _; rfl
  | cons s rest ih =>
    intro h
    rw [writeAll_cons, write_str_ws_id fmt inn s fun c hc => h c (by
      rw [List.flatten_cons]
      exact List.mem_append_left _ hc)]
    exact ih fun c hc => h c (by
      rw [List.flatten_cons]
      exact List.mem_append_right _ hc)

/-! ## The claims -/

/-- C1 (amended): within a single `write_str` call, the line numbers passed
to the prefix strategy are strictly increasing, each is the index of a piece
of that call's chunk, and when the writer has not started, every piece
before the first number's piece is absorbed whitespace while that piece
itself carries text — so the strategy is never invoked for an absorbed
pre-start blank.  The counter is per call (the enumeration index of
`split('\n')`), not a single counter over the writer's lifetime. -/
theorem C1_per_call_line_numbers (st : Indented) (s : List Char) :
    List.Chain' (fun a b => a < b) (write_nums st s) ∧
      (∀ n ∈ write_nums st s, n < (splitOnNl s).length) ∧
      (st.started = false → ∀ n0, (write_nums st s).head? = some n0 →
        (∀ j, j < n0 → trimStart ((splitOnNl s).getD j []) = []) ∧
          ¬ trimStart ((splitOnNl s).getD n0 []) = []) := by
  refine ⟨wp_nums_chain st.format (splitOnNl s) st.started 0, ?_, ?_⟩
  · intro n hn
    have := wp_nums_bounds st.format (splitOnNl s) st.started 0 n hn
    omega
  · intro hstart n0 h0
    unfold write_nums at h0
    rw [hstart] at h0
    obtain ⟨h1, h2, h3⟩ := wp_nums_absorbed st.format (splitOnNl s) 0 n0 h0
    refine ⟨?_, by simpa using h3⟩
    intro j hj
    have := h2 j (by omega)
    simpa using this

/-- Witness for C1 at a concrete input. -/
theorem C1_per_call_line_numbers_w :
    List.Chain' (fun a b => a < b)
      (write_nums (indented []) (("a\nb").data)) :=
  (C1_per_call_line_numbers (indented []) (("a\nb").data)).1

/-- C1 counterexample: over the writer's lifetime the numbers passed to the
strategy are [0, 1, 1] for the calls "a\nb" then "\nc" — not monotonically
increasing, because each call restarts at its own piece index. -/
theorem C1_counterexample :
    writeAllNums (indented []) [("a\nb").data, ("\nc").data] = [0, 1, 1] ∧
      ¬ List.Pairwise (fun a b => a < b)
        (writeAllNums (indented []) [("a\nb").data, ("\nc").data]) :=
  ⟨by decide, by decide⟩

/-- C2 (amended): at the started-transition, if the first real text lies in
the first piece of the current chunk, the prefix emitted is the prefix for
line number 0 followed by the stripped piece; blank pieces in earlier chunks
do not affect this (the state carries only `started`), but newline-separated
blanks inside the same chunk shift the number (see the counterexample). -/
theorem C2_first_emission (st : Indented) (s : List Char)
    (h1 : st.started = false)
    (h2 : ¬ trimStart ((splitOnNl s).headI) = []) :
    (write_reqs st s).take 2 =
      [st.format.insert_indentation 0, trimStart ((splitOnNl s).headI)] ∧
      (write_nums st s).head? = some 0 := by
  obtain ⟨p, ps, hp⟩ := List.exists_cons_of_ne_nil (splitOnNl_ne_nil s)
  unfold write_reqs write_nums
  rw [h1, hp]
  rw [hp] at h2
  simp only [List.headI] at h2
  rw [wp_text _ _ _ _ h2]
  dsimp only
  constructor
  · simp [List.headI]
  · rfl

/-- Witness for C2 at a concrete input. -/
theorem C2_first_emission_w :
    (write_reqs (indented []) (("hi").data)).take 2 =
      [(indented []).format.insert_indentation 0,
        trimStart ((splitOnNl (("hi").data)).headI)] ∧
      (write_nums (indented []) (("hi").data)).head? = some 0 :=
  C2_first_emission (indented []) (("hi").data) rfl (by decide)

/-- C2 counterexample: with a Numbered writer of index 2, writing "\nverify"
skips one blank piece inside the same chunk, and the prefix emitted before
the first text is the continuation padding (line 1), not the line-0 prefix
with the right-aligned index. -/
theorem C2_counterexample :
    (write_reqs ((indented []).ind 2) (("\nverify").data)).head? ≠
      some (((indented []).ind 2).format.insert_indentation 0) := by decide

/-- C3 (amended): for the Uniform strategy, writing the concatenation in one
call produces exactly the same final writer state (sink content, started
flag, and format) as writing any decomposition chunk by chunk through a
fresh writer. -/
theorem C3_uniform_split (M : List Char) (chunks : List (List Char)) :
    writeAll ⟨[], false, .Uniform M⟩ chunks =
      Indented.write_str ⟨[], false, .Uniform M⟩ chunks.flatten :=
  uniform_split_invariance M chunks [] false

/-- C3 counterexample: for the Numbered strategy the split matters — the
line number passed to the prefix routine is the piece index within the
current call, so "\nverify" written as one chunk and as ["\n", "verify"]
produce different sink contents. -/
theorem C3_counterexample :
    (writeAll ((indented []).ind 2) [("\n").data, ("verify").data]).inner ≠
      (writeAll ((indented []).ind 2) [("\nverify").data]).inner := by decide

/-- C4 (amended): for every index whose decimal rendering has at most four
digits, the continuation padding has exactly the width of the first line's
formatted prefix (right-aligned index in a field of width 4 plus ": "), and
the concrete case of index 2 writing "verify\nthis" yields
"   2: verify\n      this".  For five or more digits the first-line prefix
is wider than the fixed six-space padding (see the counterexample). -/
theorem C4_alignment (n : Nat) (h : (Nat.repr n).length ≤ 4) :
    ((Format.Numbered n).insert_indentation 1).length =
      ((Format.Numbered n).insert_indentation 0).length ∧
      (Indented.write_str ((indented []).ind 2)
          (("verify\nthis").data)).inner =
        ("   2: verify\n      this").data := by
  constructor
  · have hL : (Nat.repr n).data.length ≤ 4 := h
    have e1 : (Format.Numbered n).insert_indentation 1 = ("      ").data := rfl
    have e0 : (Format.Numbered n).insert_indentation 0 = numberedIndent n := rfl
    have h6 : (("      ").data).length = 6 := rfl
    have hlen : (numberedIndent n).length =
        (4 - (Nat.repr n).data.length) + ((Nat.repr n).data.length + 2) := by
      simp [numberedIndent]
    rw [e1, e0, h6, hlen]
    omega
  · decide

/-- Witness for C4 at index 2. -/
theorem C4_alignment_w :
    ((Format.Numbered 2).insert_indentation 1).length =
      ((Format.Numbered 2).insert_indentation 0).length ∧
      (Indented.write_str ((indented []).ind 2)
          (("verify\nthis").data)).inner =
        ("   2: verify\n      this").data :=
  C4_alignment 2 (by decide)

/-- C4 counterexample: at index 10000 the first-line prefix "10000: " is 7
characters wide while the continuation padding stays at 6 spaces. -/
theorem C4_counterexample :
    ((Format.Numbered 10000).insert_indentation 1).length ≠
      ((Format.Numbered 10000).insert_indentation 0).length := by decide

/-- C5 (amended): for text whose first character is not whitespace, a
uniform writer with marker M produces M followed by the text with another
copy of M inserted immediately after every newline.  (The original claim's
hypothesis — first line not whitespace-only — is not enough: leading
whitespace on a first line that also has text is stripped, see the
counterexample.) -/
theorem C5_uniform_prepend (M inn : List Char) (c : Char) (t : List Char)
    (hc : rustIsWhitespace c = false) :
    (Indented.write_str ⟨inn, false, .Uniform M⟩ (c :: t)).inner =
      inn ++ M ++ indentNewlines M (c :: t) := by
  rw [write_str_mk]
  dsimp only
  rw [(wp_eq_uniformRun M (c :: t) false).2]
  rw [ur_false_tx M c t hc]
  dsimp only
  rw [ur_true_indentNewlines]
  have hnl := not_ws_ne_nl c hc
  simp [indentNewlines, hnl]

/-- Witness for C5 on "verify\nthis" with the default four-space marker. -/
theorem C5_uniform_prepend_w :
    (Indented.write_str ⟨[], false, .Uniform (("    ").data)⟩
        ('v' :: ("erify\nthis").data)).inner =
      [] ++ ("    ").data ++
        indentNewlines (("    ").data) ('v' :: ("erify\nthis").data) :=
  C5_uniform_prepend (("    ").data) [] 'v' (("erify\nthis").data) (by decide)

/-- C5 counterexample: " a" has a first line that is not whitespace-only,
yet the output is not M ++ T — the leading space of the first line is
stripped before the first prefix is emitted. -/
theorem C5_counterexample :
    (Indented.write_str (indented []) ((" a").data)).inner ≠
      ("    ").data ++ (" a").data := by decide

/-- C6: pre-start content that is entirely whitespace — possibly spread over
several calls — produces no output at all and leaves `started` false, for
any strategy; concretely, writing "   \n\t\n  real text" to a fresh default
writer emits exactly one prefix immediately followed by "real text". -/
theorem C6_absorption (fmt : Format) (inn : List Char)
    (chunks : List (List Char))
    (h : ∀ c ∈ chunks.flatten, rustIsWhitespace c = true) :
    writeAll ((indented inn).with_format fmt) chunks =
        (indented inn).with_format fmt ∧
      (Indented.write_str (indented [])
          (("   \n\t\n  real text").data)).inner =
        ("    real text").data ∧
      write_nums (indented []) (("   \n\t\n  real text").data) = [2] := by
  refine ⟨?_, by decide, by decide⟩
  show writeAll ⟨inn, false, fmt⟩ chunks = ⟨inn, false, fmt⟩
  exact writeAll_ws_id fmt inn chunks h

/-- Witness for C6 on a whitespace-only chunk. -/
theorem C6_absorption_w :
    writeAll ((indented []).with_format (Format.Uniform (("    ").data)))
        [(" \n\t ").data] =
      (indented []).with_format (Format.Uniform (("    ").data)) :=
  (C6_absorption (Format.Uniform (("    ").data)) [] [(" \n\t ").data]
    (by decide)).1

/-- C7: running `write_str` against an arbitrary fallible sink equals
feeding the pure sub-write request trace to the sink one request at a time:
the first failing sub-write's error is returned and no later request touches
the sink, and if no sub-write fails the call succeeds with the same
`started` flag as the pure run. -/
theorem C7_failure_propagation {σ ε : Type} (wr : σ → List Char → Except ε σ)
    (st : Indented) (s : List Char) (k : σ) :
    writeE wr st.format st.started s k =
      (feedSink wr k (write_reqs st s)).map
        (fun k1 => ((st.write_str s).started, k1)) := by
  unfold writeE write_reqs
  rw [write_strE_eq_feed wr st.format (splitOnNl s) st.started 0 k]
  rfl

/-- C8: starting from construction (any strategy installed via
`with_format`), after any sequence of write calls the `started` flag is
false exactly when nothing has been appended to the sink. -/
theorem C8_started_iff_untouched (fmt : Format) (inn : List Char)
    (chunks : List (List Char)) :
    (writeAll ((indented inn).with_format fmt) chunks).started = false ↔
      (writeAll ((indented inn).with_format fmt) chunks).inner = inn := by
  show (writeAll ⟨inn, false, fmt⟩ chunks).started = false ↔
    (writeAll ⟨inn, false, fmt⟩ chunks).inner = inn
  rcases writeAll_false_inv fmt chunks inn with ⟨h1, h2⟩ | ⟨h1, h2⟩
  · exact ⟨fun _ => h2, fun _ => h1⟩
  · constructor
    · intro hc
      rw [h1] at hc
      exact absurd hc (by simp)
    · intro hc
      rw [hc] at h2
      exact absurd h2 (lt_irrefl _)

/-- C9: `with_format` (and `ind`, which installs `Numbered`) replaces only
the format: the sink content and the `started` flag are untouched and
nothing is written by the call itself. -/
theorem C9_with_format_frame (st : Indented) (f : Format) (n : Nat) :
    (st.with_format f).inner = st.inner ∧
      (st.with_format f).started = st.started ∧
      (st.with_format f).format = f ∧
      st.ind n = st.with_format (.Numbered n) :=
  ⟨rfl, rfl, rfl, rfl⟩

/-- C10: writing the empty chunk is an identity on the writer: the sink
content, the `started` flag and the format are all unchanged (and, the sink
being the infallible in-memory buffer, the call succeeds). -/
theorem C10_empty_write (st : Indented) : st.write_str [] = st :=
  write_str_empty st

end Indenter
